import Mathlib

/-!
Shallow embedding of `src/methods/methods.py` (repository `csslab`).

Numeric data is modelled over `ℚ`: the Python code manipulates machine
floats, and every claim below is about exact algebraic identities of the
computations, which rational arithmetic renders faithfully wherever no
division by zero occurs.  Where numpy silently produces a non-finite value
(division by zero yields NaN/Inf together with a `RuntimeWarning`, never an
exception), the embedding uses `Option ℚ` with `none` standing for the
non-finite result.

Python strings are modelled as `List Char`; Python `list`s as `List`;
`pandas.Series` values (an ordered sequence of key/value pairs) as
`List (ℚ × ℚ)`; the Python value `None` as `Option.none`.
-/

/-- `np.min(data)`: the minimum of a nonempty collection.  `np.min` raises on
an empty input; the `0` returned for `[]` here is an arbitrary junk value,
every theorem below that touches it assumes `data ≠ []`. -/
def npmin : List ℚ → ℚ
  | [] => 0
  | x :: xs => xs.foldl min x

/-- `np.max(data)`: the maximum of a nonempty collection (junk `0` on `[]`,
as for `npmin`). -/
def npmax : List ℚ → ℚ
  | [] => 0
  | x :: xs => xs.foldl max x

/-- Value of one hexadecimal digit, as consumed by Python's
`int(s, base=16)` (which accepts both letter cases).  `int` raises
`ValueError` on any other character; that branch is modelled by the junk
value `0` and is never reached by the inputs the claims use. -/
def hexDigit (c : Char) : ℕ :=
  if '0' ≤ c ∧ c ≤ '9' then c.toNat - '0'.toNat
  else if 'a' ≤ c ∧ c ≤ 'f' then c.toNat - 'a'.toNat + 10
  else if 'A' ≤ c ∧ c ≤ 'F' then c.toNat - 'A'.toNat + 10
  else 0

/-- `hex2rgb` (methods.py lines 31-46):
`hexcolor = hexcolor[1:] if '#' in hexcolor else hexcolor[:]`,
`hexcolor = int('0x' + hexcolor, base=16)`, then the three bytes
`[(hexcolor >> 16) & 0xff, (hexcolor >> 8) & 0xff, hexcolor & 0xff]`.
Bit operations on the parsed number are written arithmetically:
`n >> k` is `n / 2 ^ k` and `n & 0xff` is `n % 256`. -/
def hex2rgb (hexcolor : List Char) : List ℕ :=
  let s := if hexcolor.contains '#' then hexcolor.drop 1 else hexcolor
  let n := s.foldl (fun acc c => 16 * acc + hexDigit c) 0
  [n / 2 ^ 16 % 256, n / 2 ^ 8 % 256, n % 256]

/-- `rgb2hex` (methods.py lines 48-62): starting from `'#'`, for each
component append `hex(each)[2:].upper()`, appending a trailing `'0'`
when that hex string is a single character (`hex_each += '0'`).
`hex(each)[2:]` for a nonnegative integer is its lowercase base-16
representation, i.e. `Nat.toDigits 16`. -/
def rgb2hex (rgb : List ℕ) : List Char :=
  rgb.foldl
    (fun hexcolor each =>
      let hex_each := (Nat.toDigits 16 each).map Char.toUpper
      let hex_each := if hex_each.length < 2 then hex_each ++ ['0'] else hex_each
      hexcolor ++ hex_each)
    ['#']

/-- `distribution_fre` (methods.py lines 150-162) on a concrete list:
`data.value_counts().sort_index()` is the sequence of
(distinct value, multiplicity) pairs with keys sorted ascending, and the
result divides each count by `data_count.sum()`.
`List.insertionSort` of `data.dedup` realises the ascending enumeration of
the distinct observed values. -/
def distribution_fre (data : List ℚ) : List (ℚ × ℚ) :=
  let data_count := (data.dedup.insertionSort (· ≤ ·)).map (fun v => (v, data.count v))
  let s := (data_count.map Prod.snd).sum
  data_count.map (fun p => (p.1, (p.2 : ℚ) / (s : ℚ)))

/-- `distribution_fre` including the `if data is None: return None` guard
(methods.py lines 156-157); `none` models the Python value `None`. -/
def distribution_fre_opt (data : Option (List ℚ)) : Option (List (ℚ × ℚ)) :=
  match data with
  | none => none
  | some d => some (distribution_fre d)

/-- Width of one histogram bin: `np.histogram(data, bins=b)` over the
default range `[min(data), max(data)]` uses `b` equal-width bins. -/
def binWidth (data : List ℚ) (b : ℕ) : ℚ :=
  (npmax data - npmin data) / (b : ℚ)

/-- The `i`-th histogram bin edge, `np.linspace(min, max, b + 1)[i]`. -/
def histEdge (data : List ℚ) (b i : ℕ) : ℚ :=
  npmin data + (i : ℚ) * binWidth data b

/-- Index of the bin receiving observation `x` in `np.histogram`:
the bins are half-open `[e_i, e_[i+1})` except that the last bin also
contains its right edge, i.e. the index is `(x - min) / width` rounded
down and clamped to `b - 1`. -/
def binIndex (data : List ℚ) (b : ℕ) (x : ℚ) : ℕ :=
  min ⌊(x - npmin data) / binWidth data b⌋.toNat (b - 1)

/-- Number of observations falling in bin `i` of `np.histogram(data, bins=b)`. -/
def binCount (data : List ℚ) (b i : ℕ) : ℕ :=
  (data.filter (fun x => binIndex data b x == i)).length

/-- `n.sum()` for the histogram count vector `n`: the number of
observations captured by the histogram's range. -/
def totalCount (data : List ℚ) (b : ℕ) : ℕ :=
  ∑ j in Finset.range b, binCount data b j

/-- `distribution_pdf` (methods.py lines 164-179): `bins` defaults to 200
when `None`; `np.histogram(data, bins=b, density=True)` yields per-bin
densities `count / (counts.sum() * bin_width)`; the key of bin `i` is
`(xdata + np.roll(xdata, -1))[:-1] / 2.0`, the midpoint
`(e_i + e_[i+1]) / 2` of its edges. -/
def distribution_pdf (data : List ℚ) (bins : Option ℕ) : List (ℚ × ℚ) :=
  let b := bins.getD 200
  (List.range b).map (fun i =>
    ((histEdge data b i + histEdge data b (i + 1)) / 2,
     (binCount data b i : ℚ) / ((totalCount data b : ℚ) * binWidth data b)))

/-- `distribution_cdf` (methods.py lines 181-188): for each index label
`ind` of the pdf, `pdf[:ind].sum()` — the label-based slice of a Series
with ascending index keeps every entry whose key is `≤ ind` — and finally
`cdf / cdf.max()`.  Rational division renders the float division exactly;
the divisor is nonzero whenever the data is nonempty with `min < max`,
the only regime the claims (and numpy's finite arithmetic) cover. -/
def distribution_cdf (data : List ℚ) (bins : Option ℕ) : List (ℚ × ℚ) :=
  let pdf := distribution_pdf data bins
  let cdf := pdf.map (fun p => ((pdf.filter (fun q => decide (q.1 ≤ p.1))).map Prod.snd).sum)
  (pdf.map Prod.fst).zip (cdf.map (fun c => c / npmax cdf))

/-- Reference definition for claim C7, following the spec's words:
"computes `probability_density(data, bin_count)` then, for each domain
value `v` in ascending order, sums the density × bin-width mass for all
bins with domain key ≤ v, producing the cumulative value at `v`.  Finally
rescales the entire cumulative sequence by dividing every entry by the
maximum entry."  Stated over the same embedded pdf, with the bin width
`(max - min) / bin_count`. -/
def cumulative_density_spec (data : List ℚ) (bins : Option ℕ) : List (ℚ × ℚ) :=
  let pdf := distribution_pdf data bins
  let w := binWidth data (bins.getD 200)
  let s := pdf.map (fun p => ((pdf.filter (fun q => decide (q.1 ≤ p.1))).map (fun q => q.2 * w)).sum)
  (pdf.map Prod.fst).zip (s.map (fun c => c / npmax s))

/-- `normlize` (methods.py lines 236-247):
`(upper - lower) * (data - xmin) / (xmax - xmin) + lower`, elementwise over
the collection.  When `xmax - xmin = 0` numpy performs `0 / 0`, which does
not raise: it emits a `RuntimeWarning` and produces the non-finite float
`nan` for every entry; `none` models that non-finite outcome. -/
def normlize (data : List ℚ) (lower upper : ℚ) : List (Option ℚ) :=
  let xmax := npmax data
  let xmin := npmin data
  data.map (fun x =>
    if xmax - xmin = 0 then none
    else some ((upper - lower) * (x - xmin) / (xmax - xmin) + lower))

/-! ### Helper lemmas -/

lemma list_sum_map_div (l : List ℚ) (f : ℚ → ℚ) (c : ℚ) :
    (l.map (fun x => f x / c)).sum = (l.map f).sum / c := by
  induction l with
  | nil => simp
  | cons x t ih => simp [ih, add_div]

lemma distribution_fre_keys (data : List ℚ) :
    (distribution_fre data).map Prod.fst = data.dedup.insertionSort (· ≤ ·) := by
  simp only [distribution_fre, List.map_map]
  simp [Function.comp_def]

lemma distribution_fre_total (data : List ℚ) :
    ((data.dedup.insertionSort (· ≤ ·)).map (fun v => data.count v)).sum = data.length := by
  have hperm : ((data.dedup.insertionSort (· ≤ ·)).map (fun v => data.count v)).Perm
      (data.dedup.map (fun v => data.count v)) :=
    (List.perm_insertionSort _ _).map _
  rw [hperm.sum_eq]
  exact List.sum_map_count_dedup_eq_length data

lemma le_foldl_max (l : List ℚ) : ∀ a : ℚ, a ≤ l.foldl max a := by
  induction l with
  | nil => intro a; simp
  | cons x t ih => intro a; exact le_trans (le_max_left a x) (ih (max a x))

lemma mem_le_foldl_max (l : List ℚ) : ∀ (a x : ℚ), x ∈ l → x ≤ l.foldl max a := by
  induction l with
  | nil => intro a x hx; cases hx
  | cons y t ih =>
    intro a x hx
    rcases List.mem_cons.mp hx with h | h
    · subst h
      exact le_trans (le_max_right a x) (le_foldl_max t _)
    · exact ih _ x h

lemma foldl_max_mem (l : List ℚ) : ∀ a : ℚ, l.foldl max a = a ∨ l.foldl max a ∈ l := by
  induction l with
  | nil => intro a; exact Or.inl rfl
  | cons x t ih =>
    intro a
    rw [List.foldl_cons]
    rcases ih (max a x) with h | h
    · rcases max_cases a x with ⟨hm, -⟩ | ⟨hm, -⟩
      · exact Or.inl (by rw [h, hm])
      · exact Or.inr (by rw [h, hm]; exact List.mem_cons_self x t)
    · exact Or.inr (List.mem_cons_of_mem x h)

lemma npmax_mem {l : List ℚ} (h : l ≠ []) : npmax l ∈ l := by
  cases l with
  | nil => exact absurd rfl h
  | cons x t =>
    simp only [npmax]
    rcases foldl_max_mem t x with h1 | h1
    · rw [h1]; exact List.mem_cons_self x t
    · exact List.mem_cons_of_mem x h1

lemma le_npmax_of_mem {l : List ℚ} {x : ℚ} (hx : x ∈ l) : x ≤ npmax l := by
  cases l with
  | nil => cases hx
  | cons y t =>
    simp only [npmax]
    rcases List.mem_cons.mp hx with h | h
    · subst h; exact le_foldl_max t x
    · exact mem_le_foldl_max t y x h

lemma npmax_eq {l : List ℚ} {a : ℚ} (ha : a ∈ l) (hall : ∀ x ∈ l, x ≤ a) : npmax l = a :=
  le_antisymm (hall _ (npmax_mem (List.ne_nil_of_mem ha))) (le_npmax_of_mem ha)

lemma foldl_max_mul_right {w : ℚ} (hw : 0 ≤ w) (l : List ℚ) :
    ∀ a : ℚ, (l.map (fun x => x * w)).foldl max (a * w) = l.foldl max a * w := by
  induction l with
  | nil => intro a; rfl
  | cons x t ih =>
    intro a
    simp only [List.map_cons, List.foldl_cons]
    rw [← max_mul_of_nonneg a x hw, ih (max a x)]

lemma npmax_map_mul_right (l : List ℚ) {w : ℚ} (hw : 0 ≤ w) :
    npmax (l.map (fun x => x * w)) = npmax l * w := by
  cases l with
  | nil => simp [npmax]
  | cons x t =>
    simp only [List.map_cons, npmax]
    exact foldl_max_mul_right hw t x

lemma sum_map_mul_right_list (l : List ℚ) (w : ℚ) :
    (l.map (fun x => x * w)).sum = l.sum * w := by
  induction l with
  | nil => simp
  | cons x t ih => simp [ih, add_mul]

lemma sum_map_range (f : ℕ → ℚ) (n : ℕ) :
    ((List.range n).map f).sum = ∑ i in Finset.range n, f i := by
  induction n with
  | zero => simp
  | succ m ih =>
    rw [List.range_succ, List.map_append, List.sum_append, Finset.sum_range_succ, ih]
    simp

lemma range_filter_le (b j : ℕ) (hj : j < b) :
    (List.range b).filter (fun i => decide (i ≤ j)) = List.range (j + 1) := by
  induction b with
  | zero => omega
  | succ m ih =>
    rw [List.range_succ, List.filter_append]
    by_cases hc : j = m
    · subst hc
      have h1 : (List.range j).filter (fun i => decide (i ≤ j)) = List.range j :=
        List.filter_eq_self.mpr fun a ha => by
          simp only [decide_eq_true_eq]
          exact le_of_lt (List.mem_range.mp ha)
      rw [h1]
      simp [List.range_succ]
    · have hj' : j < m := by omega
      have hm : ¬ m ≤ j := by omega
      rw [ih hj']
      simp [List.filter_cons, hm]

lemma sum_length_filter_fiber (f : ℚ → ℕ) (n : ℕ) :
    ∀ l : List ℚ, (∀ x ∈ l, f x < n) →
      ∑ i in Finset.range n, (l.filter (fun x => f x == i)).length = l.length := by
  intro l
  induction l with
  | nil => intro _; simp
  | cons x t ih =>
    intro h
    have hx : f x ∈ Finset.range n := Finset.mem_range.mpr (h x (List.mem_cons_self x t))
    have ht : ∀ y ∈ t, f y < n := fun y hy => h y (List.mem_cons_of_mem x hy)
    have hsplit : ∀ i, ((x :: t).filter (fun y => f y == i)).length
        = (if f x = i then 1 else 0) + (t.filter (fun y => f y == i)).length := by
      intro i
      by_cases hfx : f x = i
      · simp [List.filter_cons, hfx, add_comm]
      · simp [List.filter_cons, hfx]
    rw [Finset.sum_congr rfl (fun i _ => hsplit i), Finset.sum_add_distrib,
      Finset.sum_ite_eq _ (f x) (fun _ => 1), if_pos hx, ih ht]
    simp [add_comm]

lemma totalCount_eq_length (data : List ℚ) (b : ℕ) (hb : 0 < b) :
    totalCount data b = data.length := by
  unfold totalCount binCount
  exact sum_length_filter_fiber (binIndex data b) b data
    (fun x _ => lt_of_le_of_lt (min_le_right _ _) (by omega))

lemma binWidth_pos (data : List ℚ) (b : ℕ) (hlt : npmin data < npmax data) (hb : 0 < b) :
    0 < binWidth data b :=
  div_pos (sub_pos.mpr hlt) (by exact_mod_cast hb)

lemma histMid_lt_histMid (data : List ℚ) (b : ℕ) (hw : 0 < binWidth data b)
    {i j : ℕ} (hij : i < j) :
    (histEdge data b i + histEdge data b (i + 1)) / 2
      < (histEdge data b j + histEdge data b (j + 1)) / 2 := by
  unfold histEdge
  have hq : (i : ℚ) < (j : ℚ) := by exact_mod_cast hij
  have h1 : ((i : ℚ) + 1) ≤ ((j : ℚ) + 1) := by linarith
  have h2 := mul_lt_mul_of_pos_right hq hw
  have h3 := mul_le_mul_of_nonneg_right h1 (le_of_lt hw)
  push_cast
  linarith

lemma histMid_le_iff (data : List ℚ) (b : ℕ) (hw : 0 < binWidth data b) (i j : ℕ) :
    (histEdge data b i + histEdge data b (i + 1)) / 2
      ≤ (histEdge data b j + histEdge data b (j + 1)) / 2 ↔ i ≤ j := by
  constructor
  · intro h
    by_contra hij
    exact absurd h (not_le.mpr (histMid_lt_histMid data b hw (not_le.mp hij)))
  · intro h
    rcases eq_or_lt_of_le h with h | h
    · subst h; exact le_refl _
    · exact le_of_lt (histMid_lt_histMid data b hw h)

lemma distribution_pdf_def (data : List ℚ) (bins : Option ℕ) :
    distribution_pdf data bins = (List.range (bins.getD 200)).map (fun i =>
      ((histEdge data (bins.getD 200) i + histEdge data (bins.getD 200) (i + 1)) / 2,
       (binCount data (bins.getD 200) i : ℚ)
         / ((totalCount data (bins.getD 200) : ℚ) * binWidth data (bins.getD 200)))) := rfl

lemma distribution_pdf_keys (data : List ℚ) (bins : Option ℕ) :
    (distribution_pdf data bins).map Prod.fst
      = (List.range (bins.getD 200)).map (fun i =>
          (histEdge data (bins.getD 200) i + histEdge data (bins.getD 200) (i + 1)) / 2) := by
  rw [distribution_pdf_def, List.map_map]
  rfl

lemma distribution_pdf_keys_pairwise (data : List ℚ) (bins : Option ℕ)
    (hw : 0 < binWidth data (bins.getD 200)) :
    ((distribution_pdf data bins).map Prod.fst).Pairwise (· < ·) := by
  rw [distribution_pdf_keys]
  exact List.pairwise_map.mpr
    ((List.pairwise_lt_range _).imp fun hij => histMid_lt_histMid data _ hw hij)

lemma div_div_div_same (a t d : ℚ) (hd : d ≠ 0) : a / d / (t / d) = a / t := by
  rcases eq_or_ne t 0 with ht | ht
  · simp [ht]
  · field_simp

/-! ### Claim theorems -/

/-- Claim C3: for a finite non-empty collection with `max ≠ min` and bounds
`lower < upper`, `normlize` returns a collection of the same length whose
element at every index `i` is
`lower + (upper - lower) * (data[i] - min) / (max - min)` — stated as the
elementwise map, which fixes both the length and every index. -/
theorem normlize_affine (data : List ℚ) (lower upper : ℚ)
    (hne : data ≠ []) (hlt : npmin data < npmax data) (hlu : lower < upper) :
    normlize data lower upper
      = data.map (fun x =>
          some (lower + (upper - lower) * (x - npmin data) / (npmax data - npmin data))) := by
  simp only [normlize]
  refine List.map_congr_left fun x _ => ?_
  rw [if_neg (sub_ne_zero.mpr (ne_of_gt hlt)), add_comm]

/-- Witness for C3: the spec's concrete scenario
`normalize([10, 20, 30], 0, 1) = [0.0, 0.5, 1.0]`. -/
theorem normlize_affine_witness :
    normlize [10, 20, 30] 0 1 = [some 0, some (1/2), some 1] := by
  rw [normlize_affine [10, 20, 30] 0 1 (by simp)
    (by norm_num [npmin, npmax, max_def, min_def]) (by norm_num)]
  norm_num [npmin, npmax, max_def, min_def]

/-- Claim C4, counterexample: at the claimed input `normalize([5,5,5], 0, 1)`
the function does not fail — numpy's division of zero by zero emits a
warning and yields NaN — so the call returns a three-element collection of
non-finite entries instead of raising any error. -/
theorem normlize_degenerate_counterexample :
    normlize [5, 5, 5] 0 1 = [none, none, none] := by
  norm_num [normlize, npmax, npmin, max_def, min_def]

/-- Claim C4 as amended: on every non-empty input with all values equal
(`max == min`) the division by zero does not raise; `normlize` returns a
collection of the input's length whose every entry is the non-finite NaN
value produced by numpy's `0.0 / 0.0`. -/
theorem normlize_degenerate (data : List ℚ) (lower upper : ℚ)
    (hne : data ≠ []) (heq : npmax data = npmin data) :
    normlize data lower upper = data.map (fun _ => (none : Option ℚ)) := by
  simp [normlize, heq]

/-- Witness for the amended C4 at a concrete degenerate input. -/
theorem normlize_degenerate_witness :
    normlize [7, 7] 2 5 = ([7, 7] : List ℚ).map (fun _ => (none : Option ℚ)) :=
  normlize_degenerate [7, 7] 2 5 (by simp) (by simp [npmax, npmin])

/-- Claim C9: with absent input (`None`) `distribution_fre` returns the
explicit `None` sentinel, and on an empty collection it returns an empty
distribution; neither case is an error. -/
theorem distribution_fre_empty_ok :
    distribution_fre_opt none = none ∧ distribution_fre ([] : List ℚ) = []
      ∧ distribution_fre_opt (some []) = some [] :=
  ⟨rfl, rfl, rfl⟩

/-- Claim C10: the `rgb2hex`/`hex2rgb` round trip fails.  `rgb2hex` pads a
single-digit hex component by appending `'0'` (multiplying the component
by 16), so `rgb2hex([1,2,3])` is `#102030` and `hex2rgb` reads back
`[16, 32, 48] ≠ [1, 2, 3]`. -/
theorem rgb2hex_roundtrip_failure :
    rgb2hex [1, 2, 3] = ['#', '1', '0', '2', '0', '3', '0'] ∧
    hex2rgb (rgb2hex [1, 2, 3]) = [16, 32, 48] ∧
    hex2rgb (rgb2hex [1, 2, 3]) ≠ [1, 2, 3] := by
  decide

/-- Claim C8: `distribution_fre` depends only on the multiset of input
values — permuting the input leaves the result unchanged. -/
theorem distribution_fre_perm_invariant (l₁ l₂ : List ℚ) (h : l₁.Perm l₂) :
    distribution_fre l₁ = distribution_fre l₂ := by
  have hsort : l₁.dedup.insertionSort (· ≤ ·) = l₂.dedup.insertionSort (· ≤ ·) :=
    List.eq_of_perm_of_sorted
      (((List.perm_insertionSort _ _).trans h.dedup).trans (List.perm_insertionSort _ _).symm)
      (List.sorted_insertionSort _ _) (List.sorted_insertionSort _ _)
  have hcount : (fun v : ℚ => (v, l₁.count v)) = fun v : ℚ => (v, l₂.count v) :=
    funext fun v => by rw [h.count_eq v]
  simp only [distribution_fre, hsort, hcount]

/-- Witness for C8 at a concrete pair of permuted inputs. -/
theorem distribution_fre_perm_invariant_witness :
    distribution_fre [1, 2, 1] = distribution_fre [1, 1, 2] :=
  distribution_fre_perm_invariant [1, 2, 1] [1, 1, 2]
    ((List.Perm.swap 1 2 []).cons 1)

/-- Claim C5: for non-empty input, the keys of `distribution_fre` are
strictly ascending, a value occurs among the keys exactly when it occurs
in the data, each key's entry is `count(key) / total_count`, and the
entries sum to exactly 1. -/
theorem distribution_fre_ok (data : List ℚ) (hne : data ≠ []) :
    ((distribution_fre data).map Prod.fst).Pairwise (· < ·) ∧
    (∀ v : ℚ, v ∈ (distribution_fre data).map Prod.fst ↔ v ∈ data) ∧
    (∀ p ∈ distribution_fre data, p.2 = (data.count p.1 : ℚ) / (data.length : ℚ)) ∧
    ((distribution_fre data).map Prod.snd).sum = 1 := by
  have hkeys := distribution_fre_keys data
  have hnodup : (data.dedup.insertionSort (· ≤ ·)).Nodup :=
    ((List.perm_insertionSort _ _).nodup_iff).mpr (List.nodup_dedup data)
  have hs : ((data.dedup.insertionSort (· ≤ ·)).map (fun v => (v, data.count v))).map
      Prod.snd = (data.dedup.insertionSort (· ≤ ·)).map (fun v => data.count v) := by
    simp [List.map_map, Function.comp_def]
  refine ⟨?_, ?_, ?_, ?_⟩
  · rw [hkeys]
    exact (List.sorted_insertionSort _ _).lt_of_le hnodup
  · intro v
    rw [hkeys, List.mem_insertionSort, List.mem_dedup]
  · intro p hp
    simp only [distribution_fre, hs, distribution_fre_total, List.map_map,
      List.mem_map] at hp
    obtain ⟨v, -, hv⟩ := hp
    subst hv
    simp
  · simp only [distribution_fre, hs, distribution_fre_total, List.map_map]
    have : (Prod.snd ∘ (fun p : ℚ × ℕ => (p.1, (p.2 : ℚ) / (data.length : ℚ)))
        ∘ fun v : ℚ => (v, data.count v))
        = fun v : ℚ => ((data.count v : ℚ) / (data.length : ℚ)) := rfl
    rw [this, list_sum_map_div _ (fun v => (data.count v : ℚ)) _]
    have hnum : ((data.dedup.insertionSort (· ≤ ·)).map (fun v => (data.count v : ℚ))).sum
        = ((data.dedup.insertionSort (· ≤ ·)).map (fun v => data.count v)).sum := by
      rw [Nat.cast_list_sum, List.map_map]
      rfl
    rw [hnum, distribution_fre_total]
    exact div_self
      (Nat.cast_ne_zero.mpr (Nat.pos_iff_ne_zero.mp (List.length_pos.mpr hne)))

/-- Witness for C5: the spec's concrete scenario — on input
`[1,1,2,3,3,3]` the distribution is `1 : 2/6, 2 : 1/6, 3 : 3/6`. -/
theorem distribution_fre_ok_witness :
    ((distribution_fre [1, 1, 2, 3, 3, 3]).map Prod.snd).sum = 1 ∧
    distribution_fre [1, 1, 2, 3, 3, 3] = [(1, 1/3), (2, 1/6), (3, 1/2)] :=
  ⟨(distribution_fre_ok [1, 1, 2, 3, 3, 3] (by simp)).2.2.2,
   by norm_num [distribution_fre, List.dedup, List.insertionSort, List.orderedInsert,
     List.count_cons, List.sum_cons]⟩

/-- Claim C2: for non-empty data with `max ≠ min` and a positive bin count
(the default 200 included), the densities of `distribution_pdf`, each
multiplied by the common bin width `(max - min) / bin_count` and summed
over all bins, equal exactly 1. -/
theorem distribution_pdf_integral_one (data : List ℚ) (bins : Option ℕ)
    (hne : data ≠ []) (hlt : npmin data < npmax data) (hb : 0 < bins.getD 200) :
    ((distribution_pdf data bins).map
        (fun p => p.2 * binWidth data (bins.getD 200))).sum = 1 := by
  set b := bins.getD 200 with hbdef
  have hw : 0 < binWidth data b := binWidth_pos data b hlt hb
  have hT : totalCount data b = data.length := totalCount_eq_length data b hb
  have hn : (0:ℚ) < (data.length : ℚ) := by exact_mod_cast List.length_pos.mpr hne
  rw [distribution_pdf_def, List.map_map]
  have hcomp : ((fun p : ℚ × ℚ => p.2 * binWidth data b) ∘ fun i =>
      ((histEdge data b i + histEdge data b (i + 1)) / 2,
       (binCount data b i : ℚ) / ((totalCount data b : ℚ) * binWidth data b)))
      = fun i : ℕ => (binCount data b i : ℚ) / (totalCount data b : ℚ) := by
    funext i
    simp only [Function.comp_apply]
    rw [div_mul_eq_mul_div]
    exact mul_div_mul_right _ _ (ne_of_gt hw)
  rw [hcomp, sum_map_range, ← Finset.sum_div, ← Nat.cast_sum]
  show (totalCount data b : ℚ) / (totalCount data b : ℚ) = 1
  rw [hT]
  exact div_self (ne_of_gt hn)

/-- Witness for C2 at `data = [0, 1]` with 2 bins. -/
theorem distribution_pdf_integral_one_witness :
    ((distribution_pdf [0, 1] (some 2)).map
        (fun p => p.2 * binWidth [0, 1] ((some 2 : Option ℕ).getD 200))).sum = 1 :=
  distribution_pdf_integral_one [0, 1] (some 2) (by simp)
    (by norm_num [npmin, npmax, min_def, max_def]) (by norm_num)

/-- Claim C6: for non-empty data with `max ≠ min` and positive bin count
`b`, `distribution_pdf` has exactly `b` entries, its keys are the
midpoints `min + (i + 1/2) * (max - min) / b` of the `b` equal-width
intervals in ascending order, and an unspecified bin count defaults
to 200. -/
theorem distribution_pdf_shape (data : List ℚ) (b : ℕ)
    (hne : data ≠ []) (hlt : npmin data < npmax data) (hb : 0 < b) :
    (distribution_pdf data (some b)).length = b ∧
    (distribution_pdf data (some b)).map Prod.fst
      = (List.range b).map (fun i : ℕ =>
          npmin data + ((i : ℚ) + 1/2) * ((npmax data - npmin data) / (b : ℚ))) ∧
    ((distribution_pdf data (some b)).map Prod.fst).Pairwise (· < ·) ∧
    distribution_pdf data none = distribution_pdf data (some 200) := by
  have hw : 0 < binWidth data b := binWidth_pos data b hlt hb
  refine ⟨?_, ?_, distribution_pdf_keys_pairwise data (some b) hw, rfl⟩
  · rw [distribution_pdf_def]
    simp
  · rw [distribution_pdf_keys]
    refine List.map_congr_left fun i _ => ?_
    show (histEdge data b i + histEdge data b (i + 1)) / 2
      = npmin data + ((i : ℚ) + 1/2) * ((npmax data - npmin data) / (b : ℚ))
    unfold histEdge binWidth
    push_cast
    ring

/-- Witness for C6 at `data = [0, 1]` with 2 bins. -/
theorem distribution_pdf_shape_witness :
    (distribution_pdf [0, 1] (some 2)).length = 2 ∧
    (distribution_pdf [0, 1] (some 2)).map Prod.fst
      = (List.range 2).map (fun i : ℕ =>
          npmin [0, 1] + ((i : ℚ) + 1/2) * ((npmax [0, 1] - npmin [0, 1]) / (2 : ℚ))) ∧
    ((distribution_pdf [0, 1] (some 2)).map Prod.fst).Pairwise (· < ·) ∧
    distribution_pdf [0, 1] none = distribution_pdf [0, 1] (some 200) :=
  distribution_pdf_shape [0, 1] 2 (by simp)
    (by norm_num [npmin, npmax, min_def, max_def]) (by norm_num)

/-- Claim C7: on non-empty data with `max ≠ min` and positive bin count,
`distribution_cdf` coincides with the spec's reference definition
`cumulative_density_spec` (prefix sums of density × bin-width over keys
`≤ v`, rescaled by the maximum entry): the constant bin width scales every
prefix sum and the maximum alike, so the rescaled sequences agree. -/
theorem distribution_cdf_refines_spec (data : List ℚ) (bins : Option ℕ)
    (hne : data ≠ []) (hlt : npmin data < npmax data) (hb : 0 < bins.getD 200) :
    distribution_cdf data bins = cumulative_density_spec data bins := by
  have hw : 0 < binWidth data (bins.getD 200) := binWidth_pos data _ hlt hb
  simp only [distribution_cdf, cumulative_density_spec]
  congr 1
  set pdf := distribution_pdf data bins with hpdf
  set w := binWidth data (bins.getD 200) with hwdef
  have hgs : pdf.map (fun p =>
        ((pdf.filter (fun q => decide (q.1 ≤ p.1))).map (fun q => q.2 * w)).sum)
      = (pdf.map (fun p =>
          ((pdf.filter (fun q => decide (q.1 ≤ p.1))).map Prod.snd).sum)).map
            (fun c => c * w) := by
    rw [List.map_map]
    refine List.map_congr_left fun p _ => ?_
    simp only [Function.comp_apply]
    calc ((pdf.filter (fun q => decide (q.1 ≤ p.1))).map (fun q => q.2 * w)).sum
        = (((pdf.filter (fun q => decide (q.1 ≤ p.1))).map Prod.snd).map
            (fun x => x * w)).sum := by rw [List.map_map]; rfl
      _ = ((pdf.filter (fun q => decide (q.1 ≤ p.1))).map Prod.snd).sum * w :=
          sum_map_mul_right_list _ _
  rw [hgs, npmax_map_mul_right _ (le_of_lt hw)]
  simp only [List.map_map]
  refine List.map_congr_left fun p _ => ?_
  simp only [Function.comp_apply]
  exact (mul_div_mul_right _ _ (ne_of_gt hw)).symm

/-- Witness for C7 at `data = [0, 1]` with 2 bins. -/
theorem distribution_cdf_refines_spec_witness :
    distribution_cdf [0, 1] (some 2) = cumulative_density_spec [0, 1] (some 2) :=
  distribution_cdf_refines_spec [0, 1] (some 2) (by simp)
    (by norm_num [npmin, npmax, min_def, max_def]) (by norm_num)

lemma range_getLast? (b : ℕ) (hb : 0 < b) : (List.range b).getLast? = some (b - 1) := by
  obtain ⟨m, rfl⟩ : ∃ m, b = m + 1 := ⟨b - 1, by omega⟩
  rw [List.range_succ, List.getLast?_concat]
  simp

lemma cdf_list_closed (b : ℕ) (key dens : ℕ → ℚ)
    (hmono : ∀ i j : ℕ, key i ≤ key j ↔ i ≤ j) :
    ((List.range b).map (fun i => (key i, dens i))).map
        (fun p => ((((List.range b).map (fun i => (key i, dens i))).filter
            (fun q => decide (q.1 ≤ p.1))).map Prod.snd).sum)
      = (List.range b).map (fun j => ∑ i in Finset.range (j + 1), dens i) := by
  rw [List.map_map]
  refine List.map_congr_left fun j hj => ?_
  simp only [Function.comp_apply]
  rw [List.filter_map]
  have hfil : (List.range b).filter
        ((fun q : ℚ × ℚ => decide (q.1 ≤ key j)) ∘ fun i => (key i, dens i))
      = (List.range b).filter (fun i => decide (i ≤ j)) :=
    List.filter_congr fun i _ => by
      simp only [Function.comp_apply]
      exact decide_eq_decide.mpr (hmono i j)
  rw [hfil, range_filter_le b j (List.mem_range.mp hj), List.map_map]
  have hsnd : (Prod.snd ∘ fun i : ℕ => (key i, dens i)) = dens := rfl
  rw [hsnd, sum_map_range]

lemma distribution_cdf_eq (data : List ℚ) (bins : Option ℕ)
    (hne : data ≠ []) (hlt : npmin data < npmax data) (hb : 0 < bins.getD 200) :
    distribution_cdf data bins
      = (List.range (bins.getD 200)).map (fun j =>
          ((histEdge data (bins.getD 200) j + histEdge data (bins.getD 200) (j + 1)) / 2,
           (∑ i in Finset.range (j + 1), (binCount data (bins.getD 200) i : ℚ))
             / (data.length : ℚ))) := by
  set b := bins.getD 200 with hbdef
  have hw : 0 < binWidth data b := binWidth_pos data b hlt hb
  have hT : totalCount data b = data.length := totalCount_eq_length data b hb
  have hlen : (0:ℚ) < (data.length : ℚ) := by exact_mod_cast List.length_pos.mpr hne
  have hTw : (0:ℚ) < (totalCount data b : ℚ) * binWidth data b := by
    rw [hT]; exact mul_pos hlen hw
  set key : ℕ → ℚ := fun i => (histEdge data b i + histEdge data b (i + 1)) / 2
    with hkeydef
  set dens : ℕ → ℚ := fun i =>
    (binCount data b i : ℚ) / ((totalCount data b : ℚ) * binWidth data b) with hdensdef
  have hpdf : distribution_pdf data bins = (List.range b).map (fun i => (key i, dens i)) :=
    rfl
  have hmono : ∀ i j : ℕ, key i ≤ key j ↔ i ≤ j := fun i j =>
    histMid_le_iff data b hw i j
  have hdens_eq : ∀ j : ℕ, (∑ i in Finset.range (j + 1), dens i)
      = (∑ i in Finset.range (j + 1), (binCount data b i : ℚ))
          / ((totalCount data b : ℚ) * binWidth data b) := by
    intro j
    rw [hdensdef, Finset.sum_div]
  have hdens_nonneg : ∀ i : ℕ, 0 ≤ dens i := fun i =>
    div_nonneg (Nat.cast_nonneg _) (le_of_lt hTw)
  have hSmono : ∀ i j : ℕ, i ≤ j →
      (∑ k in Finset.range (i + 1), dens k) ≤ ∑ k in Finset.range (j + 1), dens k :=
    fun i j hij => Finset.sum_le_sum_of_subset_of_nonneg
      (Finset.range_subset.mpr (by omega)) (fun k _ _ => hdens_nonneg k)
  have hmax : npmax ((List.range b).map (fun j => ∑ i in Finset.range (j + 1), dens i))
      = ∑ i in Finset.range b, dens i := by
    apply npmax_eq
    · refine List.mem_map.mpr ⟨b - 1, List.mem_range.mpr (by omega), ?_⟩
      rw [Nat.sub_add_cancel hb]
    · intro x hx
      obtain ⟨j, hj, rfl⟩ := List.mem_map.mp hx
      have hjb := List.mem_range.mp hj
      have h1 := hSmono j (b - 1) (by omega)
      rwa [Nat.sub_add_cancel hb] at h1
  have htot : (∑ i in Finset.range b, dens i)
      = (totalCount data b : ℚ) / ((totalCount data b : ℚ) * binWidth data b) := by
    rw [hdensdef, ← Finset.sum_div, ← Nat.cast_sum]
    rfl
  simp only [distribution_cdf]
  rw [hpdf, cdf_list_closed b key dens hmono, hmax]
  have hfst : (((List.range b).map (fun i => (key i, dens i))).map Prod.fst)
      = (List.range b).map key := by
    rw [List.map_map]; rfl
  rw [hfst, List.map_map, List.zip_map']
  refine List.map_congr_left fun j hj => ?_
  simp only [Function.comp_apply]
  have harith : (∑ i in Finset.range (j + 1), dens i) / (∑ i in Finset.range b, dens i)
      = (∑ i in Finset.range (j + 1), (binCount data b i : ℚ)) / (data.length : ℚ) := by
    rw [hdens_eq j, htot,
      div_div_div_same _ _ _ (ne_of_gt hTw), hT]
  rw [harith]

/-- Claim C1: for non-empty data with more than one distinct value and a
positive bin count (default included), the keys of `distribution_cdf` are
strictly ascending, its values read in that order are monotonically
non-decreasing, and the final value equals exactly 1. -/
theorem distribution_cdf_monotone_final_one (data : List ℚ) (bins : Option ℕ)
    (hne : data ≠ []) (hlt : npmin data < npmax data) (hb : 0 < bins.getD 200) :
    ((distribution_cdf data bins).map Prod.fst).Pairwise (· < ·) ∧
    ((distribution_cdf data bins).map Prod.snd).Pairwise (· ≤ ·) ∧
    ((distribution_cdf data bins).map Prod.snd).getLast? = some 1 := by
  set b := bins.getD 200 with hbdef
  have hw : 0 < binWidth data b := binWidth_pos data b hlt hb
  have hT : totalCount data b = data.length := totalCount_eq_length data b hb
  have hlen : (0:ℚ) < (data.length : ℚ) := by exact_mod_cast List.length_pos.mpr hne
  rw [distribution_cdf_eq data bins hne hlt hb, ← hbdef]
  rw [List.map_map, List.map_map]
  refine ⟨?_, ?_, ?_⟩
  · exact List.pairwise_map.mpr
      ((List.pairwise_lt_range b).imp fun hij => histMid_lt_histMid data b hw hij)
  · refine List.pairwise_map.mpr ((List.pairwise_lt_range b).imp ?_)
    intro i j hij
    have hsub : (∑ k in Finset.range (i + 1), (binCount data b k : ℚ))
        ≤ ∑ k in Finset.range (j + 1), (binCount data b k : ℚ) :=
      Finset.sum_le_sum_of_subset_of_nonneg (Finset.range_subset.mpr (by omega))
        (fun k _ _ => Nat.cast_nonneg _)
    exact (div_le_div_iff_of_pos_right hlen).mpr hsub
  · rw [List.getLast?_map, range_getLast? b hb]
    simp only [Option.map_some', Function.comp_apply]
    have hval : (∑ k in Finset.range ((b - 1) + 1), (binCount data b k : ℚ))
        / (data.length : ℚ) = 1 := by
      rw [Nat.sub_add_cancel hb, ← Nat.cast_sum]
      show (totalCount data b : ℚ) / (data.length : ℚ) = 1
      rw [hT]
      exact div_self (ne_of_gt hlen)
    rw [hval]

/-- Witness for C1 at `data = [0, 1]` with 2 bins. -/
theorem distribution_cdf_monotone_final_one_witness :
    ((distribution_cdf [0, 1] (some 2)).map Prod.fst).Pairwise (· < ·) ∧
    ((distribution_cdf [0, 1] (some 2)).map Prod.snd).Pairwise (· ≤ ·) ∧
    ((distribution_cdf [0, 1] (some 2)).map Prod.snd).getLast? = some 1 :=
  distribution_cdf_monotone_final_one [0, 1] (some 2) (by simp)
    (by norm_num [npmin, npmax, min_def, max_def]) (by norm_num)

